import Mathlib

/-!
Verification of the label-generation and signal-evaluation core of the
CryptoPrism news/ML repository.

The development shallowly embeds the Python sources into Lean:

* `src/src/features/labels.py` — `classify`, the forward-return probe
  `fwd_ret` inside `compute_labels`, the per-slug label computation, and the
  CLI `run` entry point;
* `src/src/models/evaluate.py` — `information_coefficient`, `rolling_ic`,
  `portfolio_simulation`;
* `src/src/models/train_lgbm.py` — the `SPLITS` walk-forward configuration
  and the control-flow skeleton of `train`.

Modelling conventions:

* Python floats are idealised as rationals (`ℚ`); a float `NaN` (and a SQL
  `NULL` reaching numpy) is `Option.none`.  `round(x, n)` is embedded as
  exact round-half-to-even on `ℚ`.
* Values such as `round(std, 6)` or `round(mean/std*sqrt(252), 4)` whose
  unrounded forms are irrational are embedded by *exactly rounded* square
  roots and quotients-by-square-roots (`nearestToSqrt`, `roundDivSqrt`),
  which compute the same rounded decimal the float pipeline produces on the
  inputs considered here.
* `statistics.stdev` (sample standard deviation) for the volatility columns
  is likewise irrational; the embedded `LabeledRow` stores the sample
  *variance* (its square).  Squaring is injective on nonnegative values, so
  equality, determinism and nullability of the column are unaffected.
* Calendar dates and timestamps are day numbers (`ℕ`); slugs are strings.
* `scipy.stats.spearmanr` is embedded as the exactly rounded Spearman rank
  correlation with average ranks (`spearman6`), with `none` for the
  degenerate (constant-rank) case where scipy returns `NaN`.
-/

set_option allowUnsafeReducibility true
attribute [semireducible] Rat.add Rat.sub Rat.mul Rat.inv Rat.div

namespace CryptoPrism

/-! ### Exact decimal rounding (Python `round`, half to even) -/

/-- Newton iteration for the integer square root, with explicit fuel so the
recursion is structural and kernel-evaluable; the fuel `n + 1` always
suffices, so `isqrt n = ⌊√n⌋`. -/
def isqrtGo (n : ℕ) : ℕ → ℕ → ℕ
  | 0, g => g
  | fuel + 1, g =>
    let g2 := (g + n / g) / 2
    if g2 < g then isqrtGo n fuel g2 else g

/-- Integer square root `⌊√n⌋` (replacement for `Nat.sqrt`, whose well-founded recursion does
not reduce in the kernel). -/
def isqrt (n : ℕ) : ℕ :=
  if n = 0 then 0 else isqrtGo n (n + 1) n

/-- Round a rational to the nearest integer, ties to even (Python `round`). -/
def rhe (x : ℚ) : ℤ :=
  let f := x.floor
  let r := x - f
  if r < 1/2 then f
  else if 1/2 < r then f + 1
  else if f % 2 = 0 then f else f + 1

/-- Python `round(x, p)`: round to `p` decimal places, ties to even. -/
def roundTo (p : ℕ) (x : ℚ) : ℚ :=
  (rhe (x * 10 ^ p) : ℚ) / 10 ^ p

/-- The nearest natural number to `√u` (for `u ≥ 0`); ties round up.
Used to embed rounded square roots exactly. -/
def nearestToSqrt (u : ℚ) : ℕ :=
  let f := isqrt u.floor.toNat
  if 4 * u < ((2 * f + 1 : ℕ) : ℚ) ^ 2 then f else f + 1

/-- Exactly rounded square root `round(√v, p)` on rationals (`v ≥ 0`). -/
def roundSqrtTo (p : ℕ) (v : ℚ) : ℚ :=
  (nearestToSqrt (v * 10 ^ (2 * p)) : ℚ) / 10 ^ p

/-- Exactly rounded quotient by a square root, `round(c / √v, p)`, on rationals (`v > 0`). -/
def roundDivSqrt (p : ℕ) (c v : ℚ) : ℚ :=
  let n : ℚ := (nearestToSqrt ((c * 10 ^ p) ^ 2 / v) : ℚ)
  if c < 0 then -n / 10 ^ p else n / 10 ^ p

/-! ### List statistics -/

/-- Arithmetic mean of a list of rationals (`np.mean`); `0` on `[]`. -/
def listMean (l : List ℚ) : ℚ := l.sum / l.length

/-- Population variance (square of `np.std`, `ddof = 0`). -/
def popVar (l : List ℚ) : ℚ :=
  (l.map (fun x => (x - listMean l) ^ 2)).sum / l.length

/-- Sample variance (square of `statistics.stdev`, `ddof = 1`). -/
def sampleVar (l : List ℚ) : ℚ :=
  (l.map (fun x => (x - listMean l) ^ 2)).sum / (l.length - 1 : ℚ)

/-! ### Embedding of `src/src/features/labels.py` -/

/-- Classification thresholds (`THRESHOLDS` dict in `labels.py`). -/
def threshold1d : ℚ := 3/100

/-- Threshold for the 3-day label. -/
def threshold3d : ℚ := 5/100

/-- Threshold for the 7-day label. -/
def threshold7d : ℚ := 7/100

/-- Threshold for the 14-day label. -/
def threshold14d : ℚ := 10/100

/-- Embedding of `classify(ret, threshold)` from `labels.py`: `None → None`,
`ret > threshold → 1`, `ret < -threshold → -1`, else `0`. -/
def classify (ret : Option ℚ) (threshold : ℚ) : Option ℤ :=
  match ret with
  | none => none
  | some r => if threshold < r then some 1 else if r < -threshold then some (-1) else some 0

/-- One OHLCV bar as consumed by `compute_labels` (only the fields the label
generator reads; the timestamp is identified with its calendar day). -/
structure Candle where
  slug : String
  date : ℕ
  close : ℚ
deriving DecidableEq

/-- The per-slug `date_to_close` dict: last write wins, as in the Python
dict built by iterating candles in order. -/
def closeAt (cs : List Candle) (d : ℕ) : Option ℚ :=
  ((cs.filter (fun c => c.date = d)).getLast?).map (fun c => c.close)

/-- Lookup `date_to_close.get(t)` followed by the `if c and c != 0` truthiness
check: `some c` exactly when date `t` has a nonzero close. -/
def validClose (m : ℕ → Option ℚ) (t : ℕ) : Option ℚ :=
  match m t with
  | none => none
  | some c => if c = 0 then none else some c

/-- Embedding of `fwd_ret(horizon_days)` from `compute_labels` (labels.py lines 144-152):
probe `d+h`, `d+h+1`, `d+h+2` in order and use the first valid nonzero
close as the future anchor. -/
def fwd_ret (m : ℕ → Option ℚ) (closeT : ℚ) (d h : ℕ) : Option ℚ :=
  match validClose m (d + h) with
  | some c => some ((c - closeT) / closeT)
  | none =>
    match validClose m (d + h + 1) with
    | some c => some ((c - closeT) / closeT)
    | none =>
      match validClose m (d + h + 2) with
      | some c => some ((c - closeT) / closeT)
      | none => none

/-- Distinct dates of a candle list, ascending (`sorted(date_to_close.keys())`). -/
def sortedDates (cs : List Candle) : List ℕ :=
  List.insertionSort (· ≤ ·) (cs.map (fun c => c.date)).dedup

/-- The `daily_rets` dict: for consecutive dates `(p, c)` in `sorted_dates`
with a nonzero close at `p`, maps `c` to the daily return. -/
def dailyRets (cs : List Candle) : List (ℕ × ℚ) :=
  ((sortedDates cs).zip (sortedDates cs).tail).filterMap (fun pc =>
    match closeAt cs pc.1, closeAt cs pc.2 with
    | some cp, some cc => if cp = 0 then none else some (pc.2, (cc - cp) / cp)
    | _, _ => none)

/-- Embedding of `rolling_std(d, window)` from `compute_labels`, with the standard
deviation represented by the sample variance (see module docstring):
take the last `window` dates strictly before `d`, collect their daily
returns, and require at least 3 observations. -/
def rollingVar (cs : List Candle) (d : ℕ) (window : ℕ) : Option ℚ :=
  let wd := (sortedDates cs).filter (fun x => x < d)
  let wd2 := wd.drop (wd.length - window)
  let rets := wd2.filterMap (fun x => (dailyRets cs).lookup x)
  if rets.length < 3 then none else some (sampleVar rets)

/-- One row of `ML_LABELS` as produced by `compute_labels`.  The
`volatility_*` fields store the sample variance (square of the stdev the
source emits); `created_at` is the wall-clock timestamp `datetime.now`. -/
structure LabeledRow where
  slug : String
  timestamp : ℕ
  close_price : ℚ
  forward_ret_1d : Option ℚ
  forward_ret_3d : Option ℚ
  forward_ret_7d : Option ℚ
  forward_ret_14d : Option ℚ
  label_1d : Option ℤ
  label_3d : Option ℤ
  label_7d : Option ℤ
  label_14d : Option ℤ
  volatility_7d : Option ℚ
  volatility_30d : Option ℚ
  created_at : ℕ
deriving DecidableEq

/-- The dict literal appended to `label_rows` for one `(slug, date)`. -/
def mkLabeledRow (s : String) (cs : List Candle) (d : ℕ) (closeT : ℚ) (now : ℕ) :
    LabeledRow :=
  let r1 := fwd_ret (closeAt cs) closeT d 1
  let r3 := fwd_ret (closeAt cs) closeT d 3
  let r7 := fwd_ret (closeAt cs) closeT d 7
  let r14 := fwd_ret (closeAt cs) closeT d 14
  { slug := s
    timestamp := d
    close_price := closeT
    forward_ret_1d := r1.map (roundTo 8)
    forward_ret_3d := r3.map (roundTo 8)
    forward_ret_7d := r7.map (roundTo 8)
    forward_ret_14d := r14.map (roundTo 8)
    label_1d := classify r1 threshold1d
    label_3d := classify r3 threshold3d
    label_7d := classify r7 threshold7d
    label_14d := classify r14 threshold14d
    volatility_7d := rollingVar cs d 7
    volatility_30d := rollingVar cs d 30
    created_at := now }

/-- The loop body of `compute_labels` for one slug: iterate the sorted
dates, keep those inside the target window with a nonzero close, and emit
one row each. -/
def perSlugRows (s : String) (cs : List Candle) (fromD toD now : ℕ) :
    List LabeledRow :=
  (sortedDates cs).filterMap (fun d =>
    if d < fromD ∨ toD < d then none
    else
      match closeAt cs d with
      | none => none
      | some closeT =>
        if closeT = 0 then none else some (mkLabeledRow s cs d closeT now))

/-- Slugs in first-appearance order (`defaultdict` key insertion order). -/
def slugsInOrder (rows : List Candle) : List String :=
  rows.foldl (fun acc c => if c.slug ∈ acc then acc else acc ++ [c.slug]) []

/-- Embedding of `compute_labels(rows, from_date, to_date)` from `labels.py`, with the
impure `datetime.now(timezone.utc)` made an explicit `now` argument. -/
def compute_labels (rows : List Candle) (fromD toD now : ℕ) : List LabeledRow :=
  (slugsInOrder rows).flatMap (fun s =>
    perSlugRows s (rows.filter (fun c => c.slug = s)) fromD toD now)

/-- Outcome of the `labels.py` command-line entry point: `run` returns the
number of processed label rows, `__main__` ignores that value and the
process exits with status 0 (there is no `sys.exit` call). -/
structure CliOutcome where
  processed : ℕ
  exitCode : ℕ
deriving DecidableEq

/-- Embedding of `run(from_date, to_date)` followed by normal interpreter exit, with the
fetched OHLCV rows passed explicitly in place of the database query. -/
def labelsCli (rows : List Candle) (fromD toD now : ℕ) : CliOutcome :=
  { processed := (compute_labels rows fromD toD now).length
    exitCode := 0 }

/-! ### Embedding of `src/src/models/evaluate.py` -/

/-- One joint observation handed to the evaluator: parallel entries of the
`signal`, `forward_return` and `dates` arrays.  `none` is a float `NaN`. -/
structure EvalRow where
  signal : Option ℚ
  ret : Option ℚ
  date : ℕ
deriving DecidableEq

/-- Embedding of `sorted(set(dates))`. -/
def sortedUnique (l : List ℕ) : List ℕ :=
  List.insertionSort (· ≤ ·) l.dedup

/-- Average ranks of a list (what `scipy.stats.spearmanr` ranks with). -/
def avgRanks (xs : List ℚ) : List ℚ :=
  xs.map (fun x =>
    ((xs.countP (fun y => y < x) : ℚ)) + ((xs.countP (fun y => y = x) : ℚ) + 1) / 2)

/-- Centered product sum `Σ (xᵢ - x̄)(yᵢ - ȳ)`. -/
def centeredSum (xs ys : List ℚ) : ℚ :=
  ((xs.zip ys).map (fun p => (p.1 - listMean xs) * (p.2 - listMean ys))).sum

/-- Embedding of `round(float(stats.spearmanr(xs, ys)[0]), 6)` on the valid pairs:
Pearson correlation of the average ranks, exactly rounded to 6 decimal
places; `none` when a rank vector is constant (scipy returns `NaN`). -/
def spearman6 (pairs : List (ℚ × ℚ)) : Option ℚ :=
  let rx := avgRanks (pairs.map Prod.fst)
  let ry := avgRanks (pairs.map Prod.snd)
  let sxy := centeredSum rx ry
  let sxx := centeredSum rx rx
  let syy := centeredSum ry ry
  if sxx * syy = 0 then none else some (roundDivSqrt 6 sxy (sxx * syy))

/-- The valid (non-NaN, non-NaN) pairs of two parallel arrays (the
`mask = ~(np.isnan(signal) | np.isnan(forward_return))` filter). -/
def validPairs (sig ret : List (Option ℚ)) : List (ℚ × ℚ) :=
  (sig.zip ret).filterMap (fun p =>
    match p.1, p.2 with
    | some x, some y => some (x, y)
    | _, _ => none)

/-- Embedding of `information_coefficient(signal, forward_return)` from `evaluate.py`:
`NaN` (= `none`) with fewer than 10 valid pairs, else the rounded Spearman
rank correlation of the valid pairs. -/
def information_coefficient (sig ret : List (Option ℚ)) : Option ℚ :=
  let pairs := validPairs sig ret
  if pairs.length < 10 then none else spearman6 pairs

/-- The trailing windows scanned by `rolling_ic`: for each `i` in
`range(window_days, len(unique_dates))` the span
`unique_dates[i - window_days : i]`. -/
def windowsOf (dates : List ℕ) (windowDays : ℕ) : List (List ℕ) :=
  let ud := sortedUnique dates
  (List.range (ud.length - windowDays)).map (fun k => (ud.drop k).take windowDays)

/-- The loop body of `rolling_ic` for one window: mask the rows whose date
lies in the window, skip the window if fewer than 10 rows survive the mask,
else compute the IC; a `NaN` IC is dropped from the series. -/
def windowIC (rows : List EvalRow) (w : List ℕ) : Option ℚ :=
  let rws := rows.filter (fun r => r.date ∈ w)
  if rws.length < 10 then none
  else information_coefficient (rws.map (fun r => r.signal)) (rws.map (fun r => r.ret))

/-- The `ic_series` list accumulated by `rolling_ic`. -/
def icSeries (rows : List EvalRow) (windowDays : ℕ) : List ℚ :=
  (windowsOf (rows.map (fun r => r.date)) windowDays).filterMap (windowIC rows)

/-- Result dict of `rolling_ic`; `none` is a float `NaN`. -/
structure RollingIC where
  ic_mean : Option ℚ
  ic_std : Option ℚ
  icir : Option ℚ
deriving DecidableEq

/-- Embedding of `rolling_ic(signal, forward_return, dates, window_days)` from
`evaluate.py`: mean, population standard deviation and their ratio over the
accumulated IC series, rounded at the output boundary.  `ic_std` is the
exactly rounded square root of the population variance, and `icir` the
exactly rounded `mean / std` (guarded by `std > 0`, i.e. variance `> 0`). -/
def rolling_ic (rows : List EvalRow) (windowDays : ℕ) : RollingIC :=
  let ics := icSeries rows windowDays
  if ics = [] then ⟨none, none, none⟩
  else
    { ic_mean := some (roundTo 6 (listMean ics))
      ic_std := some (roundSqrtTo 6 (popVar ics))
      icir := if 0 < popVar ics then some (roundDivSqrt 4 (listMean ics) (popVar ics)) else none }

/-- Sort key of `np.argsort` on the signal column: `NaN` compares above
every finite value. -/
def sigKey (r : EvalRow) : WithTop ℚ :=
  match r.signal with
  | none => (⊤ : WithTop ℚ)
  | some x => (x : WithTop ℚ)

/-- Ranking order used by `np.argsort` on the signal column: ascending with
`NaN` placed after every finite value. -/
def sigLE (a b : EvalRow) : Prop :=
  sigKey a ≤ sigKey b

instance : DecidableRel sigLE := fun _ _ => by unfold sigLE; infer_instance

instance : IsTotal EvalRow sigLE := ⟨fun _ _ => le_total _ _⟩

instance : IsTrans EvalRow sigLE := ⟨fun _ _ _ h h' => le_trans h h'⟩

/-- The rows of one date group (the `mask = dates == d` filter). -/
def rowsAt (rows : List EvalRow) (d : ℕ) : List EvalRow :=
  rows.filter (fun r => r.date = d)

/-- The date group restricted to non-NaN forward returns
(`valid = ~np.isnan(ret_d)`). -/
def validAt (rows : List EvalRow) (d : ℕ) : List EvalRow :=
  (rowsAt rows d).filter (fun r => r.ret ≠ none)

/-- Selection `np.argsort(sig_d[valid])[-top_n:]`: the valid rows sorted ascending by
signal (NaN last), keeping the final `top_n`. -/
def selAt (rows : List EvalRow) (d : ℕ) (topN : ℕ) : List EvalRow :=
  let v := validAt rows d
  (List.insertionSort sigLE v).drop (v.length - topN)

/-- The equal-weighted mean forward return of the selected rows
(`float(np.mean(ret_d[valid][top_idx]))`). -/
def pnlAt (rows : List EvalRow) (d : ℕ) (topN : ℕ) : ℚ :=
  listMean ((selAt rows d topN).map (fun r => r.ret.getD 0))

/-- The `daily_pnl` list of `portfolio_simulation`: one entry per unique
date that passes both `mask.sum() < top_n` guards. -/
def dailyPnl (rows : List EvalRow) (topN : ℕ) : List ℚ :=
  (sortedUnique (rows.map (fun r => r.date))).filterMap (fun d =>
    if (rowsAt rows d).length < topN then none
    else if (validAt rows d).length < topN then none
    else some (pnlAt rows d topN))

/-- Running products `np.cumprod(1 + pnl)`. -/
def cumProd (l : List ℚ) : List ℚ :=
  ((l.map (fun x => 1 + x)).scanl (· * ·) 1).tail

/-- Running maxima `np.maximum.accumulate`. -/
def runMax : List ℚ → List ℚ
  | [] => []
  | x :: xs => xs.scanl max x

/-- Minimum of a nonempty list (`np.min`); `0` on `[]`. -/
def listMin : List ℚ → ℚ
  | [] => 0
  | x :: xs => xs.foldl min x

/-- Result dict of `portfolio_simulation`; `none` is a float `NaN`. -/
structure PortResult where
  sharpe : Option ℚ
  max_drawdown : Option ℚ
  total_return : Option ℚ
  win_rate : Option ℚ
  total_trades : ℕ
  avg_holding_days : ℕ
deriving DecidableEq

/-- Embedding of `portfolio_simulation(signal, forward_return, dates, top_n, hold_days)`
from `evaluate.py`.  The Sharpe ratio `mean / std * sqrt(252)` rounded to 4
places is embedded as the exactly rounded `mean / sqrt(var / 252)`. -/
def portfolio_simulation (rows : List EvalRow) (topN holdDays : ℕ) : PortResult :=
  let pnl := dailyPnl rows topN
  if pnl.length < 5 then
    { sharpe := none, max_drawdown := none, total_return := none, win_rate := none
      total_trades := 0, avg_holding_days := holdDays }
  else
    let cum := cumProd pnl
    let dd := (cum.zip (runMax cum)).map (fun p => (p.1 - p.2) / p.2)
    { sharpe :=
        if 0 < popVar pnl then some (roundDivSqrt 4 (listMean pnl) (popVar pnl / 252))
        else none
      max_drawdown := some (roundTo 4 (listMin dd))
      total_return := some (roundTo 4 (cum.getLastD 0 - 1))
      win_rate := some (roundTo 4 ((pnl.countP (fun x => 0 < x) : ℚ) / pnl.length))
      total_trades := pnl.length * topN
      avg_holding_days := holdDays }

/-! ### Embedding of `src/src/models/train_lgbm.py` (walk-forward windows) -/

/-- One entry of the `SPLITS` dict; dates are `yyyymmdd` numbers, whose
numeric order agrees with the chronological order of the ISO strings. -/
structure Split where
  train_from : ℕ
  train_to : ℕ
  val_from : ℕ
  val_to : ℕ
  test_from : ℕ
  test_to : ℕ
deriving DecidableEq

/-- The two configured training modes. -/
inductive Mode where
  | price_only
  | news_augmented
deriving DecidableEq

/-- The `SPLITS` configuration constant of `train_lgbm.py`. -/
def SPLITS : Mode → Split
  | .price_only =>
    { train_from := 20240101, train_to := 20251231
      val_from := 20260120, val_to := 20260209
      test_from := 20260210, test_to := 20260224 }
  | .news_augmented =>
    { train_from := 20251021, train_to := 20260119
      val_from := 20260120, val_to := 20260209
      test_from := 20260210, test_to := 20260224 }

/-- Control-flow skeleton of `train(mode)` in `train_lgbm.py`: read the
split for the mode from the (configurable) `SPLITS` table, load the three
feature matrices, return early with no output when the training set is
empty, and otherwise run the externally supplied training/evaluation
pipeline `fit` to completion.  No branch inspects the ordering of the
windows. -/
def train {α β : Type} (splits : Mode → Split) (load : ℕ → ℕ → List α)
    (fit : List α → List α → List α → β) (mode : Mode) : Option β :=
  let split := splits mode
  let dfTrain := load split.train_from split.train_to
  let dfVal := load split.val_from split.val_to
  let dfTest := load split.test_from split.test_to
  match dfTrain with
  | [] => none
  | _ => some (fit dfTrain dfVal dfTest)

/-! ### Specification-side definitions used to state the claims -/

/-- A labeled row with the wall-clock column cleared, to compare the
deterministic content of two runs. -/
def stripTime (r : LabeledRow) : LabeledRow := { r with created_at := 0 }

/-- The valid (non-NaN signal, non-NaN return) pairs of the rows whose date
falls in a window, collected in one pass — the declarative counterpart of
the two-stage masking done by `rolling_ic` plus `information_coefficient`. -/
def windowPairs (rows : List EvalRow) (w : List ℕ) : List (ℚ × ℚ) :=
  rows.filterMap (fun r =>
    if r.date ∈ w then
      match r.signal, r.ret with
      | some x, some y => some (x, y)
      | _, _ => none
    else none)

/-- The exact, unrounded Spearman correlation in the tie-free case, in
which both rank vectors are permutations of `1..n` and therefore have the
same variance, making the correlation rational.  This is the
specification-side comparison point for the rounding claim; the code-side
value is `spearman6`.  `none` when there are ties or zero rank variance. -/
def spearmanExactNoTies (pairs : List (ℚ × ℚ)) : Option ℚ :=
  let rx := avgRanks (pairs.map Prod.fst)
  let ry := avgRanks (pairs.map Prod.snd)
  if (pairs.map Prod.fst).Nodup ∧ (pairs.map Prod.snd).Nodup ∧ centeredSum rx rx ≠ 0 then
    some (centeredSum rx ry / centeredSum rx rx)
  else none

/-- The per-window exact (unrounded) ICs of the qualifying windows, the
aggregate the specification describes. -/
def exactICs (rows : List EvalRow) (windowDays : ℕ) : List ℚ :=
  (windowsOf (rows.map (fun r => r.date)) windowDays).filterMap (fun w =>
    if 10 ≤ (windowPairs rows w).length then spearmanExactNoTies (windowPairs rows w)
    else none)

/-! ### Helper lemmas -/

theorem perSlugRows_map_stripTime (s : String) (cs : List Candle)
    (fromD toD n₁ n₂ : ℕ) :
    (perSlugRows s cs fromD toD n₁).map stripTime =
      (perSlugRows s cs fromD toD n₂).map stripTime := by
  unfold perSlugRows
  rw [List.map_filterMap, List.map_filterMap]
  congr 1
  funext d
  by_cases hd : d < fromD ∨ toD < d
  · simp [hd]
  · cases hc : closeAt cs d with
    | none => simp [hd, hc]
    | some c =>
      by_cases hc0 : c = 0
      · simp [hd, hc, hc0]
      · simp only [hd, if_false, hc, hc0, Option.map_some']
        rfl

theorem mem_perSlugRows (s : String) (cs : List Candle) (fromD toD n : ℕ)
    (r : LabeledRow) (hr : r ∈ perSlugRows s cs fromD toD n) :
    ∃ d c, closeAt cs d = some c ∧ c ≠ 0 ∧ r = mkLabeledRow s cs d c n := by
  unfold perSlugRows at hr
  rw [List.mem_filterMap] at hr
  obtain ⟨d, _, hg⟩ := hr
  by_cases hd : d < fromD ∨ toD < d
  · simp [hd] at hg
  · cases hc : closeAt cs d with
    | none => simp [hd, hc] at hg
    | some c =>
      by_cases hc0 : c = 0
      · simp [hd, hc, hc0] at hg
      · simp only [hd, if_false, hc, hc0, Option.some.injEq] at hg
        exact ⟨d, c, hc, hc0, hg.symm⟩

theorem mem_compute_labels (rows : List Candle) (fromD toD n : ℕ)
    (r : LabeledRow) (hr : r ∈ compute_labels rows fromD toD n) :
    ∃ s cs d c, closeAt cs d = some c ∧ c ≠ 0 ∧ r = mkLabeledRow s cs d c n := by
  unfold compute_labels at hr
  rw [List.mem_flatMap] at hr
  obtain ⟨s, _, hr⟩ := hr
  obtain ⟨d, c, h1, h2, h3⟩ := mem_perSlugRows _ _ _ _ _ _ hr
  exact ⟨s, _, d, c, h1, h2, h3⟩

/-! ### Claim theorems -/

/-- C4 (amended): `compute_labels` is a pure deterministic function of the
price rows, the target window and the clock; two runs over identical rows
and window agree on every field except `created_at`, which records each
run's own wall-clock timestamp. -/
theorem compute_labels_pure_modulo_created_at :
    ∀ (rows : List Candle) (fromD toD n₁ n₂ : ℕ),
      (compute_labels rows fromD toD n₁).map stripTime =
        (compute_labels rows fromD toD n₂).map stripTime ∧
      ∀ r ∈ compute_labels rows fromD toD n₁, r.created_at = n₁ := by
  intro rows fromD toD n₁ n₂
  constructor
  · unfold compute_labels
    rw [List.map_flatMap, List.map_flatMap]
    congr 1
    funext s
    exact perSlugRows_map_stripTime s _ fromD toD n₁ n₂
  · intro r hr
    obtain ⟨s, cs, d, c, _, _, h3⟩ := mem_compute_labels rows fromD toD n₁ r hr
    rw [h3]
    rfl

/-- Concrete input for the C4 counterexample: a single asset with two
consecutive daily candles. -/
def c4candles : List Candle := [⟨"btc", 100, 1⟩, ⟨"btc", 101, 2⟩]

/-- C4 (counterexample): two runs of the label generator over an identical
price series and window, at clock readings 0 and 1, produce label-row lists
that are *not* identical in every field — `created_at` differs. -/
theorem compute_labels_runs_differ_in_created_at :
    compute_labels c4candles 100 100 0 ≠ compute_labels c4candles 100 100 1 := by
  decide

/-- C4 (witness): the deterministic part of `compute_labels` evaluated at a
concrete input via the purity theorem, including the clock stamp of one
concrete emitted row. -/
theorem compute_labels_pure_witness :
    (compute_labels c4candles 100 100 0).map stripTime =
      (compute_labels c4candles 100 100 7).map stripTime ∧
    (mkLabeledRow "btc" (c4candles.filter (fun c => c.slug = "btc")) 100 1 0).created_at = 0 :=
  ⟨(compute_labels_pure_modulo_created_at c4candles 100 100 0 7).1,
   (compute_labels_pure_modulo_created_at c4candles 100 100 0 7).2 _ (by decide)⟩

/-- C9 (amended): the label backfill CLI exits with code 0 both when the
window yields zero usable rows and when it yields some; the number of
processed rows — not the exit code — is what distinguishes the two cases. -/
theorem labelsCli_exit_code_always_zero :
    ∀ (rows : List Candle) (fromD toD now : ℕ),
      (labelsCli rows fromD toD now).exitCode = 0 ∧
      ((labelsCli rows fromD toD now).processed = 0 ↔
        compute_labels rows fromD toD now = []) := by
  intro rows fromD toD now
  refine ⟨rfl, ?_⟩
  simp [labelsCli, List.length_eq_zero]

/-- Concrete input for the C9 counterexample: one candle lying outside the
requested window, so the run yields zero usable labeled rows. -/
def c9candles : List Candle := [⟨"btc", 100, 1⟩]

/-- C9 (counterexample): a window that yields zero usable rows exits with
code 0, not a nonzero code. -/
theorem labelsCli_zero_rows_exits_zero :
    (labelsCli c9candles 5 6 0).processed = 0 ∧
    (labelsCli c9candles 5 6 0).exitCode = 0 := by
  decide

/-- C6 (amended): both shipped walk-forward configurations satisfy
`TRAIN.end < VALIDATION.start` and `VALIDATION.end < TEST.start`, but the
orchestrator itself performs no overlap validation: its only early exit is
an empty training set, so an overlapping configuration is processed like
any other. -/
theorem splits_ordered_and_train_never_validates :
    ((SPLITS .price_only).train_to < (SPLITS .price_only).val_from ∧
     (SPLITS .price_only).val_to < (SPLITS .price_only).test_from ∧
     (SPLITS .news_augmented).train_to < (SPLITS .news_augmented).val_from ∧
     (SPLITS .news_augmented).val_to < (SPLITS .news_augmented).test_from) ∧
    ∀ {α β : Type} (splits : Mode → Split) (load : ℕ → ℕ → List α)
      (fit : List α → List α → List α → β) (mode : Mode),
      (train splits load fit mode = none ↔
        load (splits mode).train_from (splits mode).train_to = []) := by
  refine ⟨by decide, ?_⟩
  intro α β splits load fit mode
  unfold train
  cases h : load (splits mode).train_from (splits mode).train_to <;> simp [h]

/-- An overlapping walk-forward configuration (`train_to` is later than
`val_from`), used by the C6 counterexample. -/
def overlappingSplits : Mode → Split := fun _ =>
  { train_from := 20240101, train_to := 20260201
    val_from := 20260120, val_to := 20260209
    test_from := 20260210, test_to := 20260224 }

/-- C6 (counterexample): with an overlapping window configuration and a
nonempty training set, `train` runs to completion and produces output — it
does not fail with a configuration error. -/
theorem train_accepts_overlapping_windows :
    (overlappingSplits .price_only).val_from ≤ (overlappingSplits .price_only).train_to ∧
    train overlappingSplits (fun _ _ => [1]) (fun _ _ _ => 0) .price_only = some 0 := by
  exact ⟨by decide, rfl⟩

theorem classify_eq_none_iff (x : Option ℚ) (t : ℚ) :
    classify x t = none ↔ x = none := by
  cases x with
  | none => simp [classify]
  | some v =>
    simp only [classify]
    split_ifs <;> simp

/-- C3: for a positive threshold `t`, `classify` returns `+1` exactly on
returns strictly above `t`, `-1` exactly on returns strictly below `-t`,
and `0` otherwise (equality with either threshold included); and every row
emitted by `compute_labels` has a null label exactly where it has a null
forward return, for all four horizons. -/
theorem classify_thresholds_and_null_iff :
    (∀ t : ℚ, 0 < t → ∀ r : Option ℚ,
      (classify r t = some 1 ↔ ∃ v, r = some v ∧ t < v) ∧
      (classify r t = some (-1) ↔ ∃ v, r = some v ∧ v < -t) ∧
      (classify r t = some 0 ↔ ∃ v, r = some v ∧ -t ≤ v ∧ v ≤ t) ∧
      (classify r t = none ↔ r = none)) ∧
    (∀ (rows : List Candle) (fromD toD now : ℕ) (r : LabeledRow),
      r ∈ compute_labels rows fromD toD now →
      ((r.label_1d = none ↔ r.forward_ret_1d = none) ∧
       (r.label_3d = none ↔ r.forward_ret_3d = none) ∧
       (r.label_7d = none ↔ r.forward_ret_7d = none) ∧
       (r.label_14d = none ↔ r.forward_ret_14d = none))) := by
  constructor
  · intro t ht r
    cases r with
    | none => simp [classify]
    | some v =>
      simp only [classify]
      split_ifs with h1 h2 <;> simp_all
      all_goals linarith
  · intro rows fromD toD now r hr
    obtain ⟨s, cs, d, c, _, _, h3⟩ := mem_compute_labels rows fromD toD now r hr
    subst h3
    simp only [mkLabeledRow]
    refine ⟨?_, ?_, ?_, ?_⟩ <;>
      rw [classify_eq_none_iff, Option.map_eq_none']

/-- Concrete input for the C3 witness: one asset with two daily candles,
so the emitted row has a non-null 1-day return and null 3/7/14-day ones. -/
def c3candles : List Candle := [⟨"eth", 100, 1⟩, ⟨"eth", 101, 2⟩]

/-- C3 (witness): the classification and null-propagation facts evaluated
at a concrete return and a concrete emitted row. -/
theorem classify_thresholds_witness :
    classify (some (1/20)) threshold1d = some 1 ∧
    ((mkLabeledRow "eth" (c3candles.filter (fun c => c.slug = "eth")) 100 1 0).label_3d = none ↔
      (mkLabeledRow "eth" (c3candles.filter (fun c => c.slug = "eth")) 100 1 0).forward_ret_3d = none) := by
  have h := classify_thresholds_and_null_iff
  refine ⟨((h.1 threshold1d (by norm_num [threshold1d]) (some (1/20))).1).mpr
    ⟨1/20, rfl, by norm_num [threshold1d]⟩, ?_⟩
  exact (h.2 c3candles 100 100 0 _ (by decide)).2.1

theorem popVar_nonneg (l : List ℚ) : 0 ≤ popVar l := by
  unfold popVar
  apply div_nonneg
  · apply List.sum_nonneg
    intro x hx
    simp only [List.mem_map] at hx
    obtain ⟨y, _, rfl⟩ := hx
    positivity
  · positivity

/-- C5 (amended): the portfolio simulation's Sharpe ratio is defined
exactly when the daily-return series has at least 5 observations and
nonzero (population) standard deviation; when defined it equals the
rounded `mean / std * sqrt(252)`.  (The source guards the whole metrics
block with `len(daily_pnl) < 5`, not 2.) -/
theorem portfolio_sharpe_defined_iff :
    ∀ (rows : List EvalRow) (topN holdDays : ℕ),
      ((portfolio_simulation rows topN holdDays).sharpe ≠ none ↔
        5 ≤ (dailyPnl rows topN).length ∧ popVar (dailyPnl rows topN) ≠ 0) ∧
      (∀ s, (portfolio_simulation rows topN holdDays).sharpe = some s →
        s = roundDivSqrt 4 (listMean (dailyPnl rows topN)) (popVar (dailyPnl rows topN) / 252)) := by
  intro rows topN holdDays
  unfold portfolio_simulation
  by_cases h5 : (dailyPnl rows topN).length < 5
  · simp only [h5, if_true]
    constructor
    · simp
      omega
    · intro s hs
      simp at hs
  · simp only [h5, if_false]
    by_cases hv : 0 < popVar (dailyPnl rows topN)
    · constructor
      · simp only [hv, if_true]
        constructor
        · intro _
          exact ⟨by omega, ne_of_gt hv⟩
        · intro _
          simp
      · intro s hs
        simp only [hv, if_true, Option.some.injEq] at hs
        exact hs.symm
    · constructor
      · simp only [hv, if_false]
        constructor
        · intro h
          exact absurd rfl h
        · intro ⟨_, hne⟩
          exact absurd (le_antisymm (not_lt.mp hv) (popVar_nonneg _)) hne
      · intro s hs
        simp only [hv, if_false] at hs
        exact absurd hs (by simp)

/-- Concrete input for the C5 counterexample: three dates, one valid row
each, so the daily-return series has exactly 3 observations with nonzero
variance. -/
def c5threeDays : List EvalRow :=
  [⟨some 1, some (1/10), 1⟩, ⟨some 1, some (2/10), 2⟩, ⟨some 1, some (4/10), 3⟩]

/-- C5 (counterexample): with 3 daily-return observations of nonzero
standard deviation — where the claim requires a defined Sharpe — the
simulation returns an undefined (`NaN`) Sharpe ratio. -/
theorem portfolio_sharpe_none_with_three_days :
    (portfolio_simulation c5threeDays 1 3).sharpe = none ∧
    2 ≤ (dailyPnl c5threeDays 1).length ∧
    popVar (dailyPnl c5threeDays 1) ≠ 0 := by
  decide

/-- Concrete input for the C5 witness: six dates with distinct returns. -/
def c5sixDays : List EvalRow :=
  [⟨some 1, some 0, 0⟩, ⟨some 1, some (1/10), 1⟩, ⟨some 1, some (2/10), 2⟩,
   ⟨some 1, some (3/10), 3⟩, ⟨some 1, some (4/10), 4⟩, ⟨some 1, some (5/10), 5⟩]

/-- C5 (witness): with 6 observations and nonzero variance the Sharpe
ratio is defined and equals the rounded `mean / std * sqrt(252)`. -/
theorem portfolio_sharpe_defined_witness :
    (portfolio_simulation c5sixDays 1 3).sharpe =
      some (roundDivSqrt 4 (listMean (dailyPnl c5sixDays 1)) (popVar (dailyPnl c5sixDays 1) / 252)) := by
  rcases hs : (portfolio_simulation c5sixDays 1 3).sharpe with _ | s
  · exact absurd hs ((portfolio_sharpe_defined_iff c5sixDays 1 3).1.mpr ⟨by decide, by decide⟩)
  · rw [(portfolio_sharpe_defined_iff c5sixDays 1 3).2 s hs]

/-- C8: a date whose row group is smaller than `top_n`, or has fewer than
`top_n` non-null forward returns, is excluded from the daily-return series
entirely — the series consists of exactly the qualifying dates' mean
top-`top_n` returns, in date order, with no zero filled in for skipped
dates (and the embedding is a total function: no input raises). -/
theorem dailyPnl_skips_underfilled_dates :
    ∀ (rows : List EvalRow) (topN : ℕ),
      dailyPnl rows topN =
        ((sortedUnique (rows.map (fun r => r.date))).filter
          (fun d => topN ≤ (rowsAt rows d).length ∧ topN ≤ (validAt rows d).length)).map
          (fun d => pnlAt rows d topN) := by
  intro rows topN
  unfold dailyPnl
  generalize sortedUnique (rows.map (fun r => r.date)) = l
  induction l with
  | nil => rfl
  | cons d l ih =>
    simp only [List.filterMap_cons, List.filter_cons]
    by_cases h1 : (rowsAt rows d).length < topN
    · have hn : ¬(topN ≤ (rowsAt rows d).length ∧ topN ≤ (validAt rows d).length) := by omega
      simp [h1, hn, ih]
    · by_cases h2 : (validAt rows d).length < topN
      · have hn : ¬(topN ≤ (rowsAt rows d).length ∧ topN ≤ (validAt rows d).length) := by omega
        simp [h1, h2, hn, ih]
      · have hy : topN ≤ (rowsAt rows d).length ∧ topN ≤ (validAt rows d).length := by omega
        simp [h1, h2, hy, ih]

/-- C1: the forward return probes `d+h`, `d+h+1`, `d+h+2` in order and
anchors on the *earliest* date in that range with a valid nonzero close –
so the anchor is never before `d+h` – returning
`(close[anchor] - close[d]) / close[d]`; it is null exactly when none of
the three probe dates has a valid nonzero close. -/
theorem fwd_ret_probe_characterization :
    ∀ (m : ℕ → Option ℚ) (c : ℚ) (d h : ℕ),
      (∀ r : ℚ, fwd_ret m c d h = some r ↔
        ∃ df cf, d + h ≤ df ∧ df ≤ d + h + 2 ∧ validClose m df = some cf ∧
          (∀ e, d + h ≤ e → e < df → validClose m e = none) ∧
          r = (cf - c) / c) ∧
      (fwd_ret m c d h = none ↔ ∀ e, d + h ≤ e → e ≤ d + h + 2 → validClose m e = none) := by
  intro m c d h
  rcases h0 : validClose m (d + h) with _ | c0
  · rcases h1 : validClose m (d + h + 1) with _ | c1
    · rcases h2 : validClose m (d + h + 2) with _ | c2
      · constructor
        · intro r
          constructor
          · intro hr
            simp [fwd_ret, h0, h1, h2] at hr
          · rintro ⟨df, cf, hge, hle, hv, -, -⟩
            have hca : df = d + h ∨ df = d + h + 1 ∨ df = d + h + 2 := by omega
            rcases hca with rfl | rfl | rfl <;> simp_all
        · constructor
          · intro _ e he1 he2
            have hca : e = d + h ∨ e = d + h + 1 ∨ e = d + h + 2 := by omega
            rcases hca with rfl | rfl | rfl <;> assumption
          · intro _
            simp [fwd_ret, h0, h1, h2]
      · constructor
        · intro r
          constructor
          · intro hr
            simp only [fwd_ret, h0, h1, h2] at hr
            refine ⟨d + h + 2, c2, by omega, by omega, h2, ?_, by
              simpa using hr.symm⟩
            intro e he1 he2
            have hca : e = d + h ∨ e = d + h + 1 := by omega
            rcases hca with rfl | rfl <;> assumption
          · rintro ⟨df, cf, hge, hle, hv, hmin, rfl⟩
            have hca : df = d + h ∨ df = d + h + 1 ∨ df = d + h + 2 := by omega
            rcases hca with rfl | rfl | rfl <;> simp_all [fwd_ret]
        · constructor
          · intro hnone
            simp [fwd_ret, h0, h1, h2] at hnone
          · intro hall
            have := hall (d + h + 2) (by omega) (by omega)
            simp [h2] at this
    · constructor
      · intro r
        constructor
        · intro hr
          simp only [fwd_ret, h0, h1] at hr
          refine ⟨d + h + 1, c1, by omega, by omega, h1, ?_, by simpa using hr.symm⟩
          intro e he1 he2
          have hca : e = d + h := by omega
          rcases hca with rfl
          assumption
        · rintro ⟨df, cf, hge, hle, hv, hmin, rfl⟩
          have hca : df = d + h ∨ df = d + h + 1 ∨ df = d + h + 2 := by omega
          rcases hca with rfl | rfl | rfl
          · simp_all
          · simp_all [fwd_ret]
          · have := hmin (d + h + 1) (by omega) (by omega)
            simp_all
      · constructor
        · intro hnone
          simp [fwd_ret, h0, h1] at hnone
        · intro hall
          have := hall (d + h + 1) (by omega) (by omega)
          simp [h1] at this
  · constructor
    · intro r
      constructor
      · intro hr
        simp only [fwd_ret, h0] at hr
        exact ⟨d + h, c0, by omega, by omega, h0, by omega, by simpa using hr.symm⟩
      · rintro ⟨df, cf, hge, hle, hv, hmin, rfl⟩
        have hca : df = d + h ∨ df = d + h + 1 ∨ df = d + h + 2 := by omega
        rcases hca with rfl | rfl | rfl
        · simp_all [fwd_ret]
        · have := hmin (d + h) (by omega) (by omega)
          simp_all
        · have := hmin (d + h) (by omega) (by omega)
          simp_all
    · constructor
      · intro hnone
        simp [fwd_ret, h0] at hnone
      · intro hall
        have := hall (d + h) (by omega) (by omega)
        simp [h0] at this

theorem windowIC_eq_declarative (rows : List EvalRow) (w : List ℕ) :
    windowIC rows w =
      if 10 ≤ (windowPairs rows w).length then spearman6 (windowPairs rows w) else none := by
  have hpairs : validPairs ((rows.filter (fun r => r.date ∈ w)).map (fun r => r.signal))
      ((rows.filter (fun r => r.date ∈ w)).map (fun r => r.ret)) = windowPairs rows w := by
    unfold validPairs windowPairs
    rw [List.zip_map', List.filterMap_map, List.filterMap_filter]
    simp [Function.comp]
  have hlen : (windowPairs rows w).length ≤ (rows.filter (fun r => r.date ∈ w)).length := by
    rw [← hpairs]
    unfold validPairs
    refine le_trans (List.length_filterMap_le _ _) ?_
    rw [List.length_zip]
    simp
  simp only [windowIC, information_coefficient]
  rw [hpairs]
  by_cases hA : (rows.filter (fun r => r.date ∈ w)).length < 10
  · have hB : (windowPairs rows w).length < 10 := by omega
    simp only [hA, if_true]
    rw [if_neg (by omega)]
  · simp only [hA, if_false]
    by_cases hB : (windowPairs rows w).length < 10
    · simp only [hB, if_true]
      rw [if_neg (by omega)]
    · simp only [hB, if_false]
      rw [if_pos (by omega)]

/-- C2: the IC series of `rolling_ic` ranges over the trailing
`window_days`-date windows and contains exactly one entry per *qualifying*
window — one with at least 10 valid (non-null signal, non-null return)
pairs and a defined correlation; a window with fewer than 10 valid pairs
contributes nothing (in particular not a zero).  The reported mean and
population standard deviation aggregate exactly this series, and the
information ratio is defined exactly when some window qualified and the
standard deviation is nonzero. -/
theorem rolling_ic_qualifying_windows :
    ∀ (rows : List EvalRow) (windowDays : ℕ),
      icSeries rows windowDays =
        (windowsOf (rows.map (fun r => r.date)) windowDays).filterMap (fun w =>
          if 10 ≤ (windowPairs rows w).length then spearman6 (windowPairs rows w)
          else none) ∧
      (rolling_ic rows windowDays).ic_mean =
        (if icSeries rows windowDays = [] then none
         else some (roundTo 6 (listMean (icSeries rows windowDays)))) ∧
      (rolling_ic rows windowDays).ic_std =
        (if icSeries rows windowDays = [] then none
         else some (roundSqrtTo 6 (popVar (icSeries rows windowDays)))) ∧
      ((rolling_ic rows windowDays).icir.isSome ↔
        icSeries rows windowDays ≠ [] ∧ popVar (icSeries rows windowDays) ≠ 0) := by
  intro rows windowDays
  refine ⟨?_, ?_⟩
  · unfold icSeries
    exact List.filterMap_congr (fun w _ => windowIC_eq_declarative rows w)
  · unfold rolling_ic
    by_cases he : icSeries rows windowDays = []
    · simp [he]
    · rw [if_neg he, if_neg he, if_neg he]
      refine ⟨rfl, rfl, ?_⟩
      by_cases hv : 0 < popVar (icSeries rows windowDays)
      · rw [if_pos hv]
        simp [he, ne_of_gt hv]
      · rw [if_neg hv]
        have h0 : popVar (icSeries rows windowDays) = 0 :=
          le_antisymm (not_lt.mp hv) (popVar_nonneg _)
        simp [h0]

theorem sigKey_eq_top_iff (r : EvalRow) : sigKey r = ⊤ ↔ r.signal = none := by
  cases h : r.signal <;> simp [sigKey, h]

/-- A list sorted by the argsort order decomposes as its finite-signal part
followed by its NaN-signal part. -/
theorem sorted_sigLE_split (l : List EvalRow) (hs : l.Sorted sigLE) :
    l = l.filter (fun r => r.signal ≠ none) ++ l.filter (fun r => r.signal = none) := by
  induction l with
  | nil => rfl
  | cons x xs ih =>
    rw [List.sorted_cons] at hs
    obtain ⟨hx, hxs⟩ := hs
    by_cases h : x.signal = none
    · have hall : ∀ y ∈ xs, y.signal = none := by
        intro y hy
        have hle := hx y hy
        unfold sigLE at hle
        rw [(sigKey_eq_top_iff x).mpr h] at hle
        exact (sigKey_eq_top_iff y).mp (top_le_iff.mp hle)
      have h1 : (x :: xs).filter (fun r => decide (r.signal ≠ none)) = [] := by
        rw [List.filter_eq_nil_iff]
        intro a ha
        rcases List.mem_cons.mp ha with rfl | ha
        · simp [h]
        · simp [hall a ha]
      have h2 : (x :: xs).filter (fun r => decide (r.signal = none)) = x :: xs := by
        rw [List.filter_eq_self]
        intro a ha
        rcases List.mem_cons.mp ha with rfl | ha
        · simp [h]
        · simp [hall a ha]
      rw [h1, h2]
      rfl
    · simp only [List.filter_cons]
      rw [if_pos (by simp [h]), if_neg (by simp [h])]
      rw [List.cons_append]
      exact congrArg _ (ih hxs)

/-- The NaN-signal rows of a date group that survive the return-validity
filter. -/
def nanValid (rows : List EvalRow) (d : ℕ) : List EvalRow :=
  (validAt rows d).filter (fun r => r.signal = none)

/-- The sorted (argsort-ordered) valid rows of a date group. -/
def sortedValid (rows : List EvalRow) (d : ℕ) : List EvalRow :=
  List.insertionSort sigLE (validAt rows d)

/-- C10: NaN-signal rows survive the return-validity filter and, because
the argsort key places NaN above every finite signal, they occupy the top
of the ranking: on a qualifying date every NaN-signal valid-return row is
selected into the top-N (whenever there are at most `top_n` of them), the
selection has exactly `top_n` rows whose final (top-ranked) slots are
exactly the NaN-signal rows, and the mean return over that selection is
the date's entry in the daily-return series. -/
theorem portfolio_nan_signals_ranked_top :
    ∀ (rows : List EvalRow) (d topN : ℕ),
      topN ≤ (rowsAt rows d).length →
      topN ≤ (validAt rows d).length →
      0 < (nanValid rows d).length →
      (nanValid rows d).length ≤ topN →
      (∀ r ∈ nanValid rows d, r ∈ selAt rows d topN) ∧
      (selAt rows d topN).length = topN ∧
      ((selAt rows d topN).drop (topN - (nanValid rows d).length)).length =
        (nanValid rows d).length ∧
      (∀ r ∈ (selAt rows d topN).drop (topN - (nanValid rows d).length),
        r.signal = none) ∧
      pnlAt rows d topN ∈ dailyPnl rows topN := by
  intro rows d topN h1 h2 hk0 hk1
  have hperm : List.Perm (sortedValid rows d) (validAt rows d) :=
    List.perm_insertionSort sigLE (validAt rows d)
  have hsort : (sortedValid rows d).Sorted sigLE :=
    List.sorted_insertionSort sigLE (validAt rows d)
  have hsplit := sorted_sigLE_split (sortedValid rows d) hsort
  have hlenS : (sortedValid rows d).length = (validAt rows d).length := hperm.length_eq
  have hkle : (nanValid rows d).length ≤ (validAt rows d).length :=
    List.length_filter_le _ _
  have hkB : ((sortedValid rows d).filter (fun r => r.signal = none)).length =
      (nanValid rows d).length := by
    unfold nanValid
    rw [← List.countP_eq_length_filter, ← List.countP_eq_length_filter]
    exact hperm.countP_eq _
  have hlenA : ((sortedValid rows d).filter (fun r => r.signal ≠ none)).length =
      (validAt rows d).length - (nanValid rows d).length := by
    have := congrArg List.length hsplit
    rw [List.length_append] at this
    omega
  have hsel : selAt rows d topN =
      (sortedValid rows d).drop ((validAt rows d).length - topN) := rfl
  have hdropAB : (sortedValid rows d).drop ((validAt rows d).length - topN) =
      ((sortedValid rows d).filter (fun r => r.signal ≠ none)).drop
        ((validAt rows d).length - topN) ++
      (sortedValid rows d).filter (fun r => r.signal = none) := by
    conv_lhs => rw [hsplit]
    rw [List.drop_append_eq_append_drop]
    have hz : (validAt rows d).length - topN -
        ((sortedValid rows d).filter (fun r => r.signal ≠ none)).length = 0 := by
      omega
    rw [hz, List.drop_zero]
  have hmemB : ∀ r ∈ nanValid rows d,
      r ∈ (sortedValid rows d).filter (fun r => r.signal = none) := by
    intro r hr
    unfold nanValid at hr
    rw [List.mem_filter] at hr ⊢
    exact ⟨hperm.mem_iff.mpr hr.1, hr.2⟩
  have hlenA' : (((sortedValid rows d).filter (fun r => r.signal ≠ none)).drop
      ((validAt rows d).length - topN)).length = topN - (nanValid rows d).length := by
    rw [List.length_drop, hlenA]
    omega
  refine ⟨?_, ?_, ?_, ?_, ?_⟩
  · intro r hr
    rw [hsel, hdropAB]
    exact List.mem_append_right _ (hmemB r hr)
  · rw [hsel, List.length_drop, hlenS]
    omega
  · rw [hsel, hdropAB, ← hlenA', List.drop_left, hkB]
  · intro r hr
    rw [hsel, hdropAB, ← hlenA', List.drop_left, List.mem_filter] at hr
    simpa using hr.2
  · obtain ⟨r0, hr0⟩ := List.exists_mem_of_ne_nil _ (List.length_pos.mp hk0)
    have hr0v : r0 ∈ validAt rows d := (List.mem_filter.mp hr0).1
    have hr0row : r0 ∈ rowsAt rows d := (List.mem_filter.mp hr0v).1
    have hr0rows : r0 ∈ rows := (List.mem_filter.mp hr0row).1
    have hr0d : r0.date = d := by
      have := (List.mem_filter.mp hr0row).2
      simpa using this
    have hdmem : d ∈ sortedUnique (rows.map (fun r => r.date)) := by
      unfold sortedUnique
      rw [(List.perm_insertionSort _ _).mem_iff, List.mem_dedup, List.mem_map]
      exact ⟨r0, hr0rows, hr0d⟩
    unfold dailyPnl
    rw [List.mem_filterMap]
    refine ⟨d, hdmem, ?_⟩
    rw [if_neg (by omega), if_neg (by omega)]

theorem rhe_intCast (n : ℤ) : rhe (n : ℚ) = n := by
  unfold rhe
  have hf : ((n : ℚ)).floor = n := rfl
  rw [hf]
  norm_num

theorem roundTo_int_div (p : ℕ) (n : ℤ) :
    roundTo p ((n : ℚ) / 10 ^ p) = (n : ℚ) / 10 ^ p := by
  unfold roundTo
  have h : (n : ℚ) / 10 ^ p * 10 ^ p = (n : ℚ) := by
    field_simp
  rw [h, rhe_intCast]

theorem roundDivSqrt_fixed (p : ℕ) (c v : ℚ) :
    roundTo p (roundDivSqrt p c v) = roundDivSqrt p c v := by
  unfold roundDivSqrt
  by_cases hc : c < 0
  · simp only [hc, if_true]
    have h : -((nearestToSqrt ((c * 10 ^ p) ^ 2 / v) : ℚ)) / 10 ^ p =
        ((-(nearestToSqrt ((c * 10 ^ p) ^ 2 / v) : ℤ) : ℤ) : ℚ) / 10 ^ p := by
      push_cast
      ring
    rw [h, roundTo_int_div]
  · simp only [hc, if_false]
    have h : ((nearestToSqrt ((c * 10 ^ p) ^ 2 / v) : ℚ)) / 10 ^ p =
        (((nearestToSqrt ((c * 10 ^ p) ^ 2 / v) : ℤ) : ℤ) : ℚ) / 10 ^ p := by
      push_cast
      ring
    rw [h, roundTo_int_div]

/-- C7 (amended): per-window ICs are already rounded to 6 decimal places
inside `information_coefficient`, so the mean and standard deviation in
`rolling_ic` aggregate *rounded* (not unrounded) per-window values: every
entry of the accumulated IC series is a fixed point of 6-decimal
rounding. -/
theorem ic_series_entries_prerounded :
    ∀ (rows : List EvalRow) (windowDays : ℕ) (x : ℚ),
      x ∈ icSeries rows windowDays → roundTo 6 x = x := by
  intro rows windowDays x hx
  unfold icSeries at hx
  rw [List.mem_filterMap] at hx
  obtain ⟨w, -, hw⟩ := hx
  rw [windowIC_eq_declarative rows w] at hw
  split at hw
  · simp only [spearman6] at hw
    split at hw
    · exact absurd hw (by simp)
    · rw [Option.some.injEq] at hw
      rw [← hw]
      exact roundDivSqrt_fixed 6 _ _
  · exact absurd hw (by simp)

/-- Concrete input for the C7 counterexample: three windows of 10 tie-free
valid pairs whose exact Spearman correlations are `-151/165`, `-151/165`
and `113/165` (a trailing NaN row only extends the date range so that all
three dates become windows with `window_days = 1`). -/
def c7rows : List EvalRow :=
  [⟨some 1, some 7, 0⟩, ⟨some 2, some 9, 0⟩, ⟨some 3, some 10, 0⟩,
   ⟨some 4, some 8, 0⟩, ⟨some 5, some 6, 0⟩, ⟨some 6, some 5, 0⟩,
   ⟨some 7, some 4, 0⟩, ⟨some 8, some 3, 0⟩, ⟨some 9, some 2, 0⟩,
   ⟨some 10, some 1, 0⟩,
   ⟨some 1, some 7, 1⟩, ⟨some 2, some 9, 1⟩, ⟨some 3, some 10, 1⟩,
   ⟨some 4, some 8, 1⟩, ⟨some 5, some 6, 1⟩, ⟨some 6, some 5, 1⟩,
   ⟨some 7, some 4, 1⟩, ⟨some 8, some 3, 1⟩, ⟨some 9, some 2, 1⟩,
   ⟨some 10, some 1, 1⟩,
   ⟨some 1, some 1, 2⟩, ⟨some 2, some 2, 2⟩, ⟨some 3, some 3, 2⟩,
   ⟨some 4, some 4, 2⟩, ⟨some 5, some 7, 2⟩, ⟨some 6, some 8, 2⟩,
   ⟨some 7, some 10, 2⟩, ⟨some 8, some 9, 2⟩, ⟨some 9, some 6, 2⟩,
   ⟨some 10, some 5, 2⟩,
   ⟨none, none, 3⟩]

/-- C7 (counterexample): on `c7rows` the reported `ic_mean` is
`-0.381819`, while rounding the mean of the exact unrounded per-window
Spearman correlations gives `-0.381818` — the aggregates are computed over
rounded per-window ICs and deviate from the exact aggregate by more than
half an ulp of the declared output rounding. -/
theorem rolling_ic_mean_uses_rounded_ics :
    (rolling_ic c7rows 1).ic_mean = some ((-381819 : ℚ) / 1000000) ∧
    exactICs c7rows 1 = [(-151 : ℚ) / 165, (-151 : ℚ) / 165, (113 : ℚ) / 165] ∧
    roundTo 6 (listMean (exactICs c7rows 1)) = (-190909 : ℚ) / 500000 ∧
    some (roundTo 6 (listMean (exactICs c7rows 1))) ≠ (rolling_ic c7rows 1).ic_mean ∧
    1 / 2000000 < listMean (exactICs c7rows 1) - ((-381819 : ℚ) / 1000000) := by
  decide

/-- C7 (witness): a concrete IC-series entry, shown to be its own
6-decimal rounding by the pre-rounding theorem. -/
theorem ic_series_prerounded_witness :
    ((-57197 : ℚ) / 62500 ∈ icSeries c7rows 1) ∧
    roundTo 6 ((-57197 : ℚ) / 62500) = (-57197 : ℚ) / 62500 := by
  have hm : ((-57197 : ℚ) / 62500) ∈ icSeries c7rows 1 := by decide
  exact ⟨hm, ic_series_entries_prerounded c7rows 1 _ hm⟩

/-- Concrete input for the C10 witness: three valid-return rows on one
date, one of them with a NaN signal. -/
def c10rows : List EvalRow :=
  [⟨some 1, some (1/10), 0⟩, ⟨some 2, some (2/10), 0⟩, ⟨none, some (3/10), 0⟩]

/-- C10 (witness): with `top_n = 2` and one NaN-signal row among three
valid rows, the NaN row is selected into the top 2 and the resulting mean
(including the NaN row's return) is the day's portfolio return. -/
theorem portfolio_nan_selected_witness :
    (⟨none, some (3/10), 0⟩ : EvalRow) ∈ selAt c10rows 0 2 ∧
    (selAt c10rows 0 2).length = 2 ∧
    pnlAt c10rows 0 2 ∈ dailyPnl c10rows 2 := by
  have h := portfolio_nan_signals_ranked_top c10rows 0 2
    (by decide) (by decide) (by decide) (by decide)
  exact ⟨h.1 _ (by decide), h.2.1, h.2.2.2.2⟩

/-- Close map for the C1 witness: a single valid close at day 5, so the
horizon-2 lookup from day 2 must skip the missing day 4 and anchor on 5. -/
def c1map : ℕ → Option ℚ := fun t => if t = 5 then some 2 else none

/-- C1 (witness): the probe characterization evaluated on a concrete gapped
series — day `2 + 2 = 4` is missing, the anchor is day 5, one day later. -/
theorem fwd_ret_probe_witness :
    fwd_ret c1map 1 2 2 = some 1 ∧ validClose c1map 4 = none := by
  have h := (fwd_ret_probe_characterization c1map 1 2 2).1 1
  refine ⟨h.mpr ⟨5, 2, by omega, by omega, by decide, ?_, by norm_num⟩, by decide⟩
  intro e he1 he2
  have he : e = 4 := by omega
  subst he
  decide

end CryptoPrism
